import Mathlib

/-!
# Verification of the `secure-file-transfer` encryption core (`crypto_utils.py`)

Shallow embedding of the repository's encryption engine:

* bytes are `Nat` values `< 256`, byte strings are `List Nat`;
* the file system is an association list from paths to byte strings
  (a write prepends, a read takes the most recent entry);
* Python exceptions become an explicit `PyError` sum returned through `Except`;
* randomness (`os.urandom`) is externalized: the fresh key, nonce and
  temporary path produced inside the Python functions become parameters.

`base64.urlsafe_b64encode`/`urlsafe_b64decode` (CPython) are embedded
concretely.  The AES-256-GCM primitive comes from the external
`cryptography` package, which is not part of this repository; it is
modelled from the spec as a counter-mode keystream XOR plus a
GF(2)-linear authentication tag over the ciphertext, keeping the
interface checks (key size, nonce size, minimum data length, tag
verification) of the library.
-/

set_option maxRecDepth 4000

namespace SFT

/-- Python exceptions that the code under `src/crypto_utils.py` can raise. -/
inductive PyError where
  | valueError (msg : String)
  | invalidTag
  | binasciiError
  | fileNotFound
  deriving DecidableEq

/-- All entries of a byte string are bytes. -/
def validBytes (l : List Nat) : Prop := ∀ b ∈ l, b < 256

instance (l : List Nat) : Decidable (validBytes l) := by
  unfold validBytes; infer_instance

/-! ## Base64 (CPython `base64.urlsafe_b64encode` / `urlsafe_b64decode`) -/

/-- Character of the standard base64 alphabet for a sextet. -/
def sextetChar (s : Nat) : Char :=
  if s < 26 then Char.ofNat (65 + s)
  else if s < 52 then Char.ofNat (97 + (s - 26))
  else if s < 62 then Char.ofNat (48 + (s - 52))
  else if s = 62 then '+' else '/'

/-- Sextet value of a standard-alphabet character, `none` for other characters
(which CPython's non-strict `binascii.a2b_base64` silently skips). -/
def sextet (c : Char) : Option Nat :=
  if 65 ≤ c.toNat ∧ c.toNat ≤ 90 then some (c.toNat - 65)
  else if 97 ≤ c.toNat ∧ c.toNat ≤ 122 then some (c.toNat - 97 + 26)
  else if 48 ≤ c.toNat ∧ c.toNat ≤ 57 then some (c.toNat - 48 + 52)
  else if c = '+' then some 62
  else if c = '/' then some 63
  else none

/-- The `+→-`, `/→_` translation applied by `urlsafe_b64encode`. -/
def toUrlsafeChar (c : Char) : Char :=
  if c = '+' then '-' else if c = '/' then '_' else c

/-- The `-→+`, `_→/` translation applied by `urlsafe_b64decode`. -/
def fromUrlsafeChar (c : Char) : Char :=
  if c = '-' then '+' else if c = '_' then '/' else c

/-- Standard base64 encoding of a byte string (groups of three bytes become
four alphabet characters, a final partial group is padded with `=`). -/
def b64EncodeCore : List Nat → List Char
  | a :: b :: c :: rest =>
      sextetChar (a / 4) :: sextetChar ((a % 4) * 16 + b / 16) ::
      sextetChar ((b % 16) * 4 + c / 64) :: sextetChar (c % 64) :: b64EncodeCore rest
  | [a, b] =>
      [sextetChar (a / 4), sextetChar ((a % 4) * 16 + b / 16), sextetChar ((b % 16) * 4), '=']
  | [a] => [sextetChar (a / 4), sextetChar ((a % 4) * 16), '=', '=']
  | [] => []

/-- CPython `binascii.a2b_base64` in non-strict mode: characters outside the
alphabet are skipped, a `=` closing a group of two or three sextets ends the
parse, and a dangling partial group at the end is a `binascii.Error`.
`acc` holds the sextets of the current group (at most three). -/
def b64Core : List Char → List Nat → Except PyError (List Nat)
  | [], acc => if acc.isEmpty then .ok [] else .error .binasciiError
  | c :: rest, acc =>
    if c = '=' then
      match acc with
      | [s1, s2] => .ok [s1 * 4 + s2 / 16]
      | [s1, s2, s3] => .ok [s1 * 4 + s2 / 16, (s2 % 16) * 16 + s3 / 4]
      | _ => b64Core rest acc
    else
      match sextet c with
      | none => b64Core rest acc
      | some v =>
        match acc with
        | [s1, s2, s3] =>
          match b64Core rest [] with
          | .ok bs =>
              .ok ([s1 * 4 + s2 / 16, (s2 % 16) * 16 + s3 / 4, (s3 % 4) * 64 + v] ++ bs)
          | .error e => .error e
        | _ => b64Core rest (acc ++ [v])

/-- `encode_key_base64` of `crypto_utils.py`: URL-safe base64 text of the raw
key bytes. -/
def encode_key_base64 (key : List Nat) : String :=
  String.mk ((b64EncodeCore key).map toUrlsafeChar)

/-- `decode_key_base64` of `crypto_utils.py`: `key_b64.encode("ascii")`
(a `UnicodeEncodeError`, subclass of `ValueError`, on non-ASCII input)
followed by `base64.urlsafe_b64decode`.  No length check is performed. -/
def decode_key_base64 (s : String) : Except PyError (List Nat) :=
  if s.data.any (fun c => 128 ≤ c.toNat) then .error (.valueError "ascii encode error")
  else b64Core (s.data.map fromUrlsafeChar) []

/-! ## Container constants of `crypto_utils.py` -/

/-- `MAGIC = b"SFT1"`. -/
def MAGIC : List Nat := [83, 70, 84, 49]

/-- `NONCE_SIZE = 12`. -/
def NONCE_SIZE : Nat := 12

/-- `KEY_SIZE = 32` (256-bit AES). -/
def KEY_SIZE : Nat := 32

/-! ## AES-256-GCM

Modelled from the spec: the AEAD cipher is provided by the external
`cryptography` package (`AESGCM`, and `Cipher`/`GCM` for the streaming
path), which is not part of this repository.  GCM is counter-mode: the
ciphertext is the plaintext XORed with a keystream derived from key and
nonce, and the 16-byte tag is a GF(2)-linear function of the ciphertext
(plus a key/nonce/length-dependent pad), so any single-bit change of
ciphertext or tag flips the corresponding tag comparison.  The library's
interface checks are kept: `AESGCM(key)` requires a 16-, 24- or 32-byte
key, `decrypt` requires a nonce of 8 to 128 bytes and at least 16 bytes
of data, and raises `InvalidTag` on a tag mismatch. -/

/-- Key/nonce mixing used by the keystream and tag models. -/
def mixHash (l : List Nat) (seed : Nat) : Nat :=
  l.foldl (fun a b => (a * 131 + b) % 65536) seed

/-- Keystream byte at offset `i` for a given key and nonce. -/
def ksByte (key nonce : List Nat) (i : Nat) : Nat :=
  (mixHash key 2 * 3 + mixHash nonce 5 * 7 + i * 11 + (i / 256) * 13) % 256

/-- XOR a byte string against the keystream starting at offset `i`. -/
def xorKs (key nonce : List Nat) : Nat → List Nat → List Nat
  | _, [] => []
  | i, b :: rest => (b ^^^ ksByte key nonce i) :: xorKs key nonce (i + 1) rest

/-- XOR of the ciphertext bytes whose position is `j` modulo 16, the GF(2)
column sums entering the authentication tag. -/
def colXor (j : Nat) : List Nat → Nat → Nat
  | [], _ => 0
  | b :: rest, i => (if i % 16 = j then b else 0) ^^^ colXor j rest (i + 1)

/-- Key/nonce/length-dependent pad of tag byte `j`. -/
def padByte (key nonce : List Nat) (len j : Nat) : Nat :=
  (mixHash key 17 * 7 + mixHash nonce 19 * 9 + len * 13 + j * 29 + 31) % 256

/-- 16-byte authentication tag over a ciphertext. -/
def gtag (key nonce ct : List Nat) : List Nat :=
  (List.range 16).map (fun j => padByte key nonce ct.length j ^^^ colXor j ct 0)

/-- `AESGCM(key).encrypt(nonce, pt, None)`: ciphertext with the tag appended. -/
def aesgcmEncrypt (key nonce pt : List Nat) : List Nat :=
  xorKs key nonce 0 pt ++ gtag key nonce (xorKs key nonce 0 pt)

/-- `AESGCM(key)` constructor: checks the key size. -/
def aesgcmNew (key : List Nat) : Except PyError (List Nat) :=
  if key.length = 16 ∨ key.length = 24 ∨ key.length = 32 then .ok key
  else .error (.valueError "AESGCM key must be 128, 192, or 256 bits.")

/-- `AESGCM(key).decrypt(nonce, data, None)`: nonce-size check, minimum data
length, tag verification, then keystream XOR.  Fails closed with
`InvalidTag` and produces no plaintext otherwise. -/
def aesgcmDecrypt (key nonce data : List Nat) : Except PyError (List Nat) :=
  if nonce.length < 8 ∨ 128 < nonce.length then
    .error (.valueError "Nonce must be between 8 and 128 bytes")
  else if data.length < 16 then .error .invalidTag
  else if data.drop (data.length - 16) = gtag key nonce (data.take (data.length - 16)) then
    .ok (xorKs key nonce 0 (data.take (data.length - 16)))
  else .error .invalidTag

/-! ## File system model

`open(path, "wb")` plus `write` is `writeFS`; `open(path, "rb")` plus
`read` is `lookupFS` (the most recent write wins). -/

/-- Paths mapped to contents; later writes shadow earlier ones. -/
abbrev FS := List (String × List Nat)

/-- Read a whole file. -/
def lookupFS (fs : FS) (p : String) : Option (List Nat) :=
  (fs.find? (fun e => e.1 = p)).map (fun e => e.2)

/-- Create or overwrite a whole file. -/
def writeFS (fs : FS) (p : String) (content : List Nat) : FS :=
  (p, content) :: fs

/-! ## The functions of `crypto_utils.py`

`os.urandom` outputs (the 32-byte key and 12-byte nonce) and the path
chosen by `tempfile.mkstemp(suffix=".enc")` are parameters. -/

/-- The envelope bytes `MAGIC ++ nonce ++ ciphertext_with_tag` that
`encrypt_file` writes. -/
def encryptEnvelope (key nonce pt : List Nat) : List Nat :=
  MAGIC ++ (nonce ++ aesgcmEncrypt key nonce pt)

/-- `encrypt_file`: read the plaintext, encrypt under a fresh key and nonce,
write `MAGIC + NONCE + CIPHERTEXT(+TAG)` to the fresh temporary path, and
return that path with the base64 key. -/
def encrypt_file (key nonce : List Nat) (tempPath : String) (fs : FS)
    (filePath : String) : Except PyError (FS × String × String) :=
  match lookupFS fs filePath with
  | none => .error .fileNotFound
  | some plaintext =>
      .ok (writeFS fs tempPath (encryptEnvelope key nonce plaintext),
           tempPath, encode_key_base64 key)

/-- The in-memory part of `decrypt_file`: header check against `MAGIC`,
nonce and ciphertext extraction, key decoding, `AESGCM` construction and
authenticated decryption, in the order of the source. -/
def decryptEnvelope (env : List Nat) (keyB64 : String) : Except PyError (List Nat) :=
  if env.take 4 ≠ MAGIC then
    .error (.valueError "Invalid encrypted file format: MAGIC mismatch")
  else
    match decode_key_base64 keyB64 with
    | .error e => .error e
    | .ok key =>
      match aesgcmNew key with
      | .error e => .error e
      | .ok key => aesgcmDecrypt key ((env.drop 4).take NONCE_SIZE) (env.drop 16)

/-- Output path `decrypt_file` derives when no explicit one is supplied:
strip a trailing `".enc"`, else append `".decrypted"` (Python string
slicing on code points). -/
def defaultOutputPath (encPath : String) : String :=
  if (".enc".data).isSuffixOf encPath.data then
    String.mk (encPath.data.take (encPath.data.length - 4))
  else encPath ++ ".decrypted"

/-- `decrypt_file`: read the envelope, run `decryptEnvelope`, derive the
output path, write the plaintext there and return the path. -/
def decrypt_file (fs : FS) (encPath : String) (keyB64 : String)
    (outputPath : Option String) : Except PyError (FS × String) :=
  match lookupFS fs encPath with
  | none => .error .fileNotFound
  | some env =>
    match decryptEnvelope env keyB64 with
    | .error e => .error e
    | .ok plaintext =>
      let outPath := match outputPath with
        | some p => p
        | none => defaultOutputPath encPath
      .ok (writeFS fs outPath plaintext, outPath)

/-- `file_like.read(4 * 1024 * 1024)` chunk size of the streaming loop. -/
def CHUNK : Nat := 4 * 1024 * 1024

/-- The `while True` loop of `encrypt_stream_to_file`: encrypt the source in
`CHUNK`-byte pieces through the incremental GCM cipher whose counter sits
at byte offset `i`. -/
def encryptChunks (key nonce : List Nat) (i : Nat) (src : List Nat) : List Nat :=
  if h : src = [] then []
  else
    xorKs key nonce i (src.take CHUNK) ++
      encryptChunks key nonce (i + (src.take CHUNK).length) (src.drop CHUNK)
termination_by src.length
decreasing_by
  simp only [List.length_drop]
  have : 0 < src.length := List.length_pos.mpr h
  simp only [CHUNK]
  omega

/-- `encrypt_stream_to_file`: write the nonce, the incrementally produced
ciphertext, then the 16-byte tag (no `MAGIC`), and return the output path
with the base64 key. -/
def encrypt_stream_to_file (key nonce src : List Nat) (fs : FS)
    (outputPath : String) : FS × String × String :=
  (writeFS fs outputPath
      (nonce ++ (encryptChunks key nonce 0 src ++ gtag key nonce (encryptChunks key nonce 0 src))),
   outputPath, encode_key_base64 key)

/-- Flip bit `b` of the byte at position `p`. -/
def flipBit (bs : List Nat) (p b : Nat) : List Nat :=
  bs.set p (bs.getD p 0 ^^^ 2 ^ b)

/-- Concrete 32-byte key used by witnesses. -/
def testKey : List Nat := List.range 32

/-- Concrete 12-byte nonce used by witnesses. -/
def testNonce : List Nat := List.range 12

/-- The byte content of the test file of `test_complete.py`. -/
def testFileBytes : List Nat :=
  "This is a test file for the secure file transfer system".data.map Char.toNat

/-! ## Lemmas: base64 -/

theorem sextet_sextetChar : ∀ s, s < 64 → sextet (sextetChar s) = some s := by decide

theorem sextetChar_ne_pad : ∀ s, s < 64 → sextetChar s ≠ '=' := by decide

theorem from_to_sextetChar :
    ∀ s, s < 64 → fromUrlsafeChar (toUrlsafeChar (sextetChar s)) = sextetChar s := by decide

theorem urlsafe_sextetChar_ok :
    ∀ s, s < 64 →
      ((toUrlsafeChar (sextetChar s)).isAlphanum = true ∨
        toUrlsafeChar (sextetChar s) = '-' ∨ toUrlsafeChar (sextetChar s) = '_') ∧
      (toUrlsafeChar (sextetChar s)).toNat < 128 ∧
      (toUrlsafeChar (sextetChar s)).isWhitespace = false := by decide

/-- Every character emitted by the encoder is `=` or an alphabet character. -/
theorem mem_b64EncodeCore :
    ∀ (k : List Nat), validBytes k →
      ∀ c ∈ b64EncodeCore k, c = '=' ∨ ∃ s, s < 64 ∧ c = sextetChar s
  | [], _, c, hc => by simp [b64EncodeCore] at hc
  | [a], h, c, hc => by
    have ha : a < 256 := h a (by simp)
    simp only [b64EncodeCore, List.mem_cons, List.not_mem_nil, or_false] at hc
    rcases hc with hc | hc | hc | hc
    · exact Or.inr ⟨a / 4, by omega, hc⟩
    · exact Or.inr ⟨(a % 4) * 16, by omega, hc⟩
    · exact Or.inl hc
    · exact Or.inl hc
  | [a, b], h, c, hc => by
    have ha : a < 256 := h a (by simp)
    have hb : b < 256 := h b (by simp)
    simp only [b64EncodeCore, List.mem_cons, List.not_mem_nil, or_false] at hc
    rcases hc with hc | hc | hc | hc
    · exact Or.inr ⟨a / 4, by omega, hc⟩
    · exact Or.inr ⟨(a % 4) * 16 + b / 16, by omega, hc⟩
    · exact Or.inr ⟨(b % 16) * 4, by omega, hc⟩
    · exact Or.inl hc
  | a :: b :: d :: rest, h, c, hc => by
    have ha : a < 256 := h a (by simp)
    have hb : b < 256 := h b (by simp)
    have hd : d < 256 := h d (by simp)
    simp only [b64EncodeCore, List.mem_cons] at hc
    rcases hc with hc | hc | hc | hc | hc
    · exact Or.inr ⟨a / 4, by omega, hc⟩
    · exact Or.inr ⟨(a % 4) * 16 + b / 16, by omega, hc⟩
    · exact Or.inr ⟨(b % 16) * 4 + d / 64, by omega, hc⟩
    · exact Or.inr ⟨d % 64, by omega, hc⟩
    · exact mem_b64EncodeCore rest (fun x hx => h x (by simp [hx])) c hc

theorem b64Core_step0 (s : Nat) (hs : s < 64) (rest : List Char) :
    b64Core (sextetChar s :: rest) [] = b64Core rest [s] := by
  rw [b64Core, if_neg (sextetChar_ne_pad s hs), sextet_sextetChar s hs]
  all_goals first
  | rfl
  | simp

theorem b64Core_step1 (s : Nat) (hs : s < 64) (rest : List Char) (s1 : Nat) :
    b64Core (sextetChar s :: rest) [s1] = b64Core rest [s1, s] := by
  rw [b64Core, if_neg (sextetChar_ne_pad s hs), sextet_sextetChar s hs]
  all_goals first
  | rfl
  | simp

theorem b64Core_step2 (s : Nat) (hs : s < 64) (rest : List Char) (s1 s2 : Nat) :
    b64Core (sextetChar s :: rest) [s1, s2] = b64Core rest [s1, s2, s] := by
  rw [b64Core, if_neg (sextetChar_ne_pad s hs), sextet_sextetChar s hs]
  all_goals first
  | rfl
  | simp

theorem b64Core_step3 (s : Nat) (hs : s < 64) (rest : List Char) (s1 s2 s3 : Nat) :
    b64Core (sextetChar s :: rest) [s1, s2, s3] =
      match b64Core rest [] with
      | .ok bs =>
          .ok ([s1 * 4 + s2 / 16, (s2 % 16) * 16 + s3 / 4, (s3 % 4) * 64 + s] ++ bs)
      | .error e => .error e := by
  rw [b64Core, if_neg (sextetChar_ne_pad s hs), sextet_sextetChar s hs]
  all_goals first
  | rfl
  | simp

theorem b64Core_pad2 (rest : List Char) (s1 s2 : Nat) :
    b64Core ('=' :: rest) [s1, s2] = .ok [s1 * 4 + s2 / 16] := by
  rw [b64Core]; rfl

theorem b64Core_pad3 (rest : List Char) (s1 s2 s3 : Nat) :
    b64Core ('=' :: rest) [s1, s2, s3] =
      .ok [s1 * 4 + s2 / 16, (s2 % 16) * 16 + s3 / 4] := by
  rw [b64Core]; rfl

/-- Decoding inverts encoding for every byte string, with no length
restriction. -/
theorem b64Core_b64EncodeCore :
    ∀ (k : List Nat), validBytes k → b64Core (b64EncodeCore k) [] = Except.ok k
  | [], _ => rfl
  | [a], h => by
    have ha : a < 256 := h a (by simp)
    show b64Core (sextetChar (a / 4) :: sextetChar ((a % 4) * 16) :: '=' :: '=' :: []) [] = _
    rw [b64Core_step0 _ (by omega), b64Core_step1 _ (by omega), b64Core_pad2]
    have h1 : a / 4 * 4 + (a % 4) * 16 / 16 = a := by omega
    rw [h1]
  | [a, b], h => by
    have ha : a < 256 := h a (by simp)
    have hb : b < 256 := h b (by simp)
    show b64Core (sextetChar (a / 4) :: sextetChar ((a % 4) * 16 + b / 16) ::
        sextetChar ((b % 16) * 4) :: '=' :: []) [] = _
    rw [b64Core_step0 _ (by omega), b64Core_step1 _ (by omega), b64Core_step2 _ (by omega),
      b64Core_pad3]
    have h1 : a / 4 * 4 + ((a % 4) * 16 + b / 16) / 16 = a := by omega
    have h2 : ((a % 4) * 16 + b / 16) % 16 * 16 + (b % 16) * 4 / 4 = b := by omega
    rw [h1, h2]
  | a :: b :: d :: rest, h => by
    have ha : a < 256 := h a (by simp)
    have hb : b < 256 := h b (by simp)
    have hd : d < 256 := h d (by simp)
    have IH := b64Core_b64EncodeCore rest (fun x hx => h x (by simp [hx]))
    show b64Core (sextetChar (a / 4) :: sextetChar ((a % 4) * 16 + b / 16) ::
        sextetChar ((b % 16) * 4 + d / 64) :: sextetChar (d % 64) :: b64EncodeCore rest) [] = _
    rw [b64Core_step0 _ (by omega), b64Core_step1 _ (by omega), b64Core_step2 _ (by omega),
      b64Core_step3 _ (by omega), IH]
    have h1 : a / 4 * 4 + ((a % 4) * 16 + b / 16) / 16 = a := by omega
    have h2 : ((a % 4) * 16 + b / 16) % 16 * 16 + ((b % 16) * 4 + d / 64) / 4 = b := by omega
    have h3 : ((b % 16) * 4 + d / 64) % 4 * 64 + d % 64 = d := by omega
    rw [h1, h2, h3]
    rfl

/-- `decode_key_base64` inverts `encode_key_base64` on every byte string:
the code performs no 32-byte length check. -/
theorem decode_encode_key (k : List Nat) (hk : validBytes k) :
    decode_key_base64 (encode_key_base64 k) = .ok k := by
  have hmem := mem_b64EncodeCore k hk
  unfold decode_key_base64 encode_key_base64
  have hascii : ((b64EncodeCore k).map toUrlsafeChar).any (fun c => 128 ≤ c.toNat) = false := by
    rw [List.any_eq_false]
    intro c hc
    rcases List.mem_map.mp hc with ⟨c0, hc0, rfl⟩
    simp only [decide_eq_true_eq]
    rcases hmem c0 hc0 with rfl | ⟨s, hs, rfl⟩
    · decide
    · have := (urlsafe_sextetChar_ok s hs).2.1
      omega
  rw [show (String.mk ((b64EncodeCore k).map toUrlsafeChar)).data
      = (b64EncodeCore k).map toUrlsafeChar from rfl, hascii]
  simp only [Bool.false_eq_true, if_false, List.map_map]
  have : (b64EncodeCore k).map (fromUrlsafeChar ∘ toUrlsafeChar) = b64EncodeCore k := by
    rw [show b64EncodeCore k = (b64EncodeCore k).map id by simp]
    rw [List.map_map]
    apply List.map_congr_left
    intro c hc
    simp only [Function.comp_apply, id_eq]
    rcases hmem c (by simpa using hc) with rfl | ⟨s, hs, rfl⟩
    · decide
    · exact from_to_sextetChar s hs
  rw [this]
  exact b64Core_b64EncodeCore k hk

/-! ## Lemmas: keystream and tag -/

theorem xorKs_length (key nonce : List Nat) :
    ∀ (i : Nat) (l : List Nat), (xorKs key nonce i l).length = l.length
  | _, [] => rfl
  | i, _ :: rest => by simp [xorKs, xorKs_length key nonce (i + 1) rest]

theorem xorKs_append (key nonce : List Nat) :
    ∀ (i : Nat) (l1 l2 : List Nat),
      xorKs key nonce i (l1 ++ l2) = xorKs key nonce i l1 ++ xorKs key nonce (i + l1.length) l2
  | i, [], l2 => by simp [xorKs]
  | i, b :: rest, l2 => by
    show (b ^^^ ksByte key nonce i) :: xorKs key nonce (i + 1) (rest ++ l2)
        = ((b ^^^ ksByte key nonce i) :: xorKs key nonce (i + 1) rest)
          ++ xorKs key nonce (i + (rest.length + 1)) l2
    rw [List.cons_append, xorKs_append key nonce (i + 1) rest l2,
      show i + 1 + rest.length = i + (rest.length + 1) by omega]

theorem xorKs_xorKs (key nonce : List Nat) :
    ∀ (i : Nat) (l : List Nat), xorKs key nonce i (xorKs key nonce i l) = l
  | _, [] => rfl
  | i, b :: rest => by
    simp only [xorKs, xorKs_xorKs key nonce (i + 1) rest]
    rw [Nat.xor_assoc, Nat.xor_self, Nat.xor_zero]

theorem gtag_length (key nonce ct : List Nat) : (gtag key nonce ct).length = 16 := by
  simp [gtag]

theorem aesgcmEncrypt_length (key nonce pt : List Nat) :
    (aesgcmEncrypt key nonce pt).length = pt.length + 16 := by
  simp [aesgcmEncrypt, xorKs_length, gtag_length]

/-- Decryption inverts encryption for any nonce the library accepts. -/
theorem aesgcmDecrypt_aesgcmEncrypt (key nonce pt : List Nat)
    (hn8 : 8 ≤ nonce.length) (hn128 : nonce.length ≤ 128) :
    aesgcmDecrypt key nonce (aesgcmEncrypt key nonce pt) = .ok pt := by
  have hct : (xorKs key nonce 0 pt).length = pt.length := xorKs_length key nonce 0 pt
  have hlen : (aesgcmEncrypt key nonce pt).length = pt.length + 16 :=
    aesgcmEncrypt_length key nonce pt
  unfold aesgcmDecrypt
  rw [if_neg (by omega), if_neg (by omega)]
  unfold aesgcmEncrypt
  rw [show (xorKs key nonce 0 pt ++ gtag key nonce (xorKs key nonce 0 pt)).length - 16
      = (xorKs key nonce 0 pt).length by
    rw [List.length_append, gtag_length]; omega]
  rw [List.take_left, List.drop_left, if_pos rfl, xorKs_xorKs]

/-- Changing one byte of the ciphertext changes the corresponding GF(2)
column sum of the tag. -/
theorem colXor_set :
    ∀ (bs : List Nat) (p v i j : Nat), p < bs.length →
      colXor j (bs.set p v) i =
        colXor j bs i ^^^ (if (i + p) % 16 = j then bs.getD p 0 ^^^ v else 0)
  | [], p, v, i, j, hp => by simp at hp
  | b :: rest, 0, v, i, j, hp => by
    simp only [List.set_cons_zero, colXor, List.getD_cons_zero, Nat.add_zero]
    by_cases h : i % 16 = j
    · rw [if_pos h, if_pos h, if_pos h]
      rw [Nat.xor_comm b (colXor j rest (i + 1)), Nat.xor_assoc,
        ← Nat.xor_assoc b b v, Nat.xor_self, Nat.zero_xor,
        Nat.xor_comm (colXor j rest (i + 1)) v]
    · rw [if_neg h, if_neg h, if_neg h, Nat.xor_zero]
  | b :: rest, q + 1, v, i, j, hp => by
    simp only [List.set_cons_succ, colXor, List.getD_cons_succ]
    rw [colXor_set rest q v (i + 1) j (by simpa using hp)]
    rw [show i + 1 + q = i + (q + 1) by omega, ← Nat.xor_assoc]

theorem gtag_getElem (key nonce ct : List Nat) (j : Nat) (hj : j < 16) :
    (gtag key nonce ct)[j]? =
      some (padByte key nonce ct.length j ^^^ colXor j ct 0) := by
  simp [gtag, List.getElem?_map, List.getElem?_range hj]

/-- Left cancellation for XOR. -/
theorem xor_left_cancel {a x y : Nat} (h : a ^^^ x = a ^^^ y) : x = y := by
  have h2 := congrArg (fun z => a ^^^ z) h
  simp only [← Nat.xor_assoc, Nat.xor_self, Nat.zero_xor] at h2
  exact h2

/-- Replacing a ciphertext byte by a different value changes the tag. -/
theorem gtag_set_ne (key nonce ct : List Nat) (p v : Nat)
    (hp : p < ct.length) (hv : v ≠ ct.getD p 0) :
    gtag key nonce (ct.set p v) ≠ gtag key nonce ct := by
  intro hEq
  have hj : p % 16 < 16 := Nat.mod_lt _ (by omega)
  have h1 := gtag_getElem key nonce (ct.set p v) (p % 16) hj
  have h2 := gtag_getElem key nonce ct (p % 16) hj
  rw [hEq, List.length_set, h2] at h1
  have h4 : colXor (p % 16) ct 0 = colXor (p % 16) (ct.set p v) 0 :=
    xor_left_cancel (Option.some.inj h1)
  rw [colXor_set ct p v 0 (p % 16) hp,
    if_pos (show (0 + p) % 16 = p % 16 by omega)] at h4
  have h6 := congrArg (fun z => colXor (p % 16) ct 0 ^^^ z) h4.symm
  simp only [← Nat.xor_assoc, Nat.xor_self, Nat.zero_xor] at h6
  exact hv (Nat.xor_eq_zero.mp h6).symm

/-- XORing a byte with a nonzero power of two changes it. -/
theorem xor_two_pow_ne (x b : Nat) : x ^^^ 2 ^ b ≠ x := by
  intro hEq
  have := congrArg (fun y => x ^^^ y) hEq
  simp only at this
  rw [← Nat.xor_assoc, Nat.xor_self, Nat.zero_xor] at this
  have hpos := Nat.two_pow_pos b
  omega

/-- Replacing a list element by a different value yields a different list. -/
theorem set_ne_of_ne {l : List Nat} {q v : Nat} (hq : q < l.length) (hv : v ≠ l.getD q 0) :
    l.set q v ≠ l := by
  intro hEq
  have h1 : (l.set q v)[q]? = some v := List.getElem?_set_self (by omega)
  rw [hEq] at h1
  have h2 : l[q]? = some (l.getD q 0) := by
    rw [List.getD_eq_getElem l 0 hq, List.getElem?_eq_getElem hq]
  rw [h2] at h1
  exact hv (Option.some.inj h1).symm

/-- AEAD decryption rejects a ciphertext-plus-tag block after any
single-bit flip. -/
theorem aesgcmDecrypt_flip (key nonce ct : List Nat) (p b : Nat)
    (hn8 : 8 ≤ nonce.length) (hn128 : nonce.length ≤ 128)
    (hp : p < ct.length + 16) :
    aesgcmDecrypt key nonce (flipBit (ct ++ gtag key nonce ct) p b) =
      .error .invalidTag := by
  have htg : (gtag key nonce ct).length = 16 := gtag_length key nonce ct
  by_cases hlt : p < ct.length
  · -- the flipped byte lies in the ciphertext body
    have hflip : flipBit (ct ++ gtag key nonce ct) p b
        = ct.set p (ct.getD p 0 ^^^ 2 ^ b) ++ gtag key nonce ct := by
      unfold flipBit
      rw [List.getD_append _ _ _ _ hlt, List.set_append_left _ _ hlt]
    rw [hflip]
    unfold aesgcmDecrypt
    rw [if_neg (by omega)]
    rw [if_neg (by rw [List.length_append, List.length_set, htg]; omega)]
    rw [show (ct.set p (ct.getD p 0 ^^^ 2 ^ b) ++ gtag key nonce ct).length - 16
        = (ct.set p (ct.getD p 0 ^^^ 2 ^ b)).length by
      rw [List.length_append, List.length_set, htg]; omega]
    rw [List.take_left, List.drop_left, if_neg]
    intro hEq
    exact gtag_set_ne key nonce ct p _ hlt (xor_two_pow_ne _ b) hEq.symm
  · -- the flipped byte lies in the 16-byte tag
    have hge : ct.length ≤ p := by omega
    have hflip : flipBit (ct ++ gtag key nonce ct) p b
        = ct ++ (gtag key nonce ct).set (p - ct.length)
            ((gtag key nonce ct).getD (p - ct.length) 0 ^^^ 2 ^ b) := by
      unfold flipBit
      rw [List.getD_append_right _ _ _ _ hge, List.set_append_right _ _ hge]
    rw [hflip]
    unfold aesgcmDecrypt
    rw [if_neg (by omega)]
    rw [if_neg (by rw [List.length_append, List.length_set, htg]; omega)]
    rw [show (ct ++ (gtag key nonce ct).set (p - ct.length)
          ((gtag key nonce ct).getD (p - ct.length) 0 ^^^ 2 ^ b)).length - 16
        = ct.length by rw [List.length_append, List.length_set, htg]; omega]
    rw [List.take_left, List.drop_left, if_neg]
    exact set_ne_of_ne (by omega) (xor_two_pow_ne _ b)

/-- AEAD decryption rejects the encryption of `pt` after any single-bit
flip in its ciphertext-plus-tag block. -/
theorem aesgcmDecrypt_flip_encrypt (key nonce pt : List Nat) (p b : Nat)
    (hn8 : 8 ≤ nonce.length) (hn128 : nonce.length ≤ 128)
    (hp : p < pt.length + 16) :
    aesgcmDecrypt key nonce (flipBit (aesgcmEncrypt key nonce pt) p b) =
      .error .invalidTag := by
  have hct : (xorKs key nonce 0 pt).length = pt.length := xorKs_length key nonce 0 pt
  unfold aesgcmEncrypt
  exact aesgcmDecrypt_flip key nonce (xorKs key nonce 0 pt) p b hn8 hn128 (by omega)

/-! ## Lemmas: envelope parsing and the file system -/

theorem lookupFS_writeFS_self (fs : FS) (p : String) (c : List Nat) :
    lookupFS (writeFS fs p c) p = some c := by
  unfold lookupFS writeFS
  rw [List.find?_cons_of_pos _ (by simp)]
  rfl

theorem lookupFS_writeFS_ne (fs : FS) (p q : String) (c : List Nat) (h : q ≠ p) :
    lookupFS (writeFS fs p c) q = lookupFS fs q := by
  unfold lookupFS writeFS
  rw [List.find?_cons_of_neg _ (by simp [Ne.symm h])]

/-- `decrypt_file`'s header parsing on a well-formed envelope layout. -/
theorem decryptEnvelope_parts (nonce data : List Nat) (hn : nonce.length = 12)
    (keyB64 : String) :
    decryptEnvelope (MAGIC ++ (nonce ++ data)) keyB64 =
      match decode_key_base64 keyB64 with
      | .error e => .error e
      | .ok key =>
        match aesgcmNew key with
        | .error e => .error e
        | .ok key => aesgcmDecrypt key nonce data := by
  unfold decryptEnvelope
  rw [@List.take_left' _ MAGIC (nonce ++ data) 4 rfl, if_neg (by simp)]
  rw [@List.drop_left' _ MAGIC (nonce ++ data) 4 rfl]
  simp only [NONCE_SIZE]
  rw [← hn, List.take_left]
  rw [show (16 : Nat) = (MAGIC ++ nonce).length by simp [MAGIC, hn],
    ← List.append_assoc, List.drop_left]

/-! ## Lemmas: streaming -/

theorem encryptChunks_eq_aux (key nonce : List Nat) :
    ∀ (n : Nat) (src : List Nat), src.length ≤ n → ∀ (i : Nat),
      encryptChunks key nonce i src = xorKs key nonce i src
  | _, [], _, _ => by rw [encryptChunks]; simp [xorKs]
  | 0, b :: rest, hle, i => by simp at hle
  | n + 1, b :: rest, hle, i => by
    rw [encryptChunks, dif_neg (by simp)]
    have hlen : ((b :: rest).drop CHUNK).length ≤ n := by
      rw [List.length_drop]
      simp only [List.length_cons] at hle ⊢
      simp only [CHUNK]
      omega
    rw [encryptChunks_eq_aux key nonce n _ hlen _, ← xorKs_append, List.take_append_drop]

/-- The chunked streaming loop produces the same ciphertext as a single
keystream pass over the whole source. -/
theorem encryptChunks_eq (key nonce src : List Nat) (i : Nat) :
    encryptChunks key nonce i src = xorKs key nonce i src :=
  encryptChunks_eq_aux key nonce src.length src (Nat.le_refl _) i

/-- Parsing plus decryption on a well-formed layout under a well-formed
key text. -/
theorem decryptEnvelope_parts_ok (nonce data key : List Nat) (hn : nonce.length = 12)
    (hkey : key.length = 32) (hkv : validBytes key) :
    decryptEnvelope (MAGIC ++ (nonce ++ data)) (encode_key_base64 key) =
      aesgcmDecrypt key nonce data := by
  rw [decryptEnvelope_parts _ _ hn, decode_encode_key key hkv]
  have hnew : aesgcmNew key = .ok key := by
    unfold aesgcmNew
    rw [if_pos (Or.inr (Or.inr hkey))]
  simp only [hnew]

/-- The decryption core inverts the envelope produced by encryption. -/
theorem decryptEnvelope_encryptEnvelope (key nonce pt : List Nat)
    (hkey : key.length = 32) (hkv : validBytes key) (hn : nonce.length = 12) :
    decryptEnvelope (encryptEnvelope key nonce pt) (encode_key_base64 key) = .ok pt := by
  show decryptEnvelope (MAGIC ++ (nonce ++ aesgcmEncrypt key nonce pt)) _ = _
  rw [decryptEnvelope_parts_ok _ _ _ hn hkey hkv]
  exact aesgcmDecrypt_aesgcmEncrypt key nonce pt (by omega) (by omega)

/-- The decryption core rejects a bit-flipped envelope with `InvalidTag`. -/
theorem decryptEnvelope_flip (key nonce pt : List Nat) (i b : Nat)
    (hkey : key.length = 32) (hkv : validBytes key) (hn : nonce.length = 12)
    (hi : 16 ≤ i) (hi2 : i < (encryptEnvelope key nonce pt).length) :
    decryptEnvelope (flipBit (encryptEnvelope key nonce pt) i b) (encode_key_base64 key) =
      .error .invalidTag := by
  have hpre : (MAGIC ++ nonce).length = 16 := by simp [MAGIC, hn]
  have hctlen : (aesgcmEncrypt key nonce pt).length = pt.length + 16 :=
    aesgcmEncrypt_length key nonce pt
  have henvlen : (encryptEnvelope key nonce pt).length = 16 + (pt.length + 16) := by
    unfold encryptEnvelope
    rw [← List.append_assoc, List.length_append, hpre, hctlen]
  have hflip : flipBit (encryptEnvelope key nonce pt) i b
      = MAGIC ++ (nonce ++ flipBit (aesgcmEncrypt key nonce pt) (i - 16) b) := by
    unfold flipBit encryptEnvelope
    rw [← List.append_assoc]
    rw [List.getD_append_right _ _ _ _ (by omega), List.set_append_right _ _ (by omega)]
    rw [hpre, List.append_assoc]
  rw [hflip, decryptEnvelope_parts_ok _ _ _ hn hkey hkv]
  exact aesgcmDecrypt_flip_encrypt key nonce pt (i - 16) b (by omega) (by omega)
    (by rw [henvlen] at hi2; omega)

/-! ## The claims -/

/-- C1: for every plaintext byte sequence (including the empty one),
single-shot encryption via `encrypt_file` followed by `decrypt_file` with
the returned base64 key text reproduces the plaintext exactly: the
encrypted file holds the envelope, decrypting it succeeds and writes the
original bytes to the output path. -/
theorem c1_roundtrip_single_shot (key nonce pt : List Nat) (fs : FS)
    (filePath tempPath outPath : String)
    (hkey : key.length = 32) (hkv : validBytes key) (hn : nonce.length = 12)
    (hfile : lookupFS fs filePath = some pt) :
    encrypt_file key nonce tempPath fs filePath =
      .ok (writeFS fs tempPath (encryptEnvelope key nonce pt), tempPath,
           encode_key_base64 key) ∧
    decrypt_file (writeFS fs tempPath (encryptEnvelope key nonce pt)) tempPath
        (encode_key_base64 key) (some outPath) =
      .ok (writeFS (writeFS fs tempPath (encryptEnvelope key nonce pt)) outPath pt,
           outPath) ∧
    lookupFS (writeFS (writeFS fs tempPath (encryptEnvelope key nonce pt)) outPath pt)
        outPath = some pt := by
  have hdec := decryptEnvelope_encryptEnvelope key nonce pt hkey hkv hn
  refine ⟨?_, ?_, ?_⟩
  · simp only [encrypt_file, hfile]
  · simp only [decrypt_file, lookupFS_writeFS_self, hdec]
  · exact lookupFS_writeFS_self _ _ _

/-- C1 witness: a concrete round trip through `encrypt_file` and
`decrypt_file` on the empty plaintext. -/
theorem c1_roundtrip_single_shot_witness :
    encrypt_file testKey testNonce "t.enc" [("p.txt", [])] "p.txt" =
      .ok (writeFS [("p.txt", [])] "t.enc" (encryptEnvelope testKey testNonce []),
           "t.enc", encode_key_base64 testKey) ∧
    decrypt_file (writeFS [("p.txt", [])] "t.enc" (encryptEnvelope testKey testNonce []))
        "t.enc" (encode_key_base64 testKey) (some "p.out") =
      .ok (writeFS (writeFS [("p.txt", [])] "t.enc" (encryptEnvelope testKey testNonce []))
             "p.out" [], "p.out") ∧
    lookupFS (writeFS (writeFS [("p.txt", [])] "t.enc" (encryptEnvelope testKey testNonce []))
        "p.out" []) "p.out" = some [] :=
  c1_roundtrip_single_shot testKey testNonce [] [("p.txt", [])] "p.txt" "t.enc" "p.out"
    (by decide) (by decide) (by decide) rfl

/-- C2: flipping any single bit of a valid single-shot envelope at byte
offset 16 or later (the ciphertext-with-tag region) makes decryption fail
with `InvalidTag` (`AuthenticationFailed`), and `decrypt_file` returns the
error without producing a file-system state or output path, so no
plaintext — not even partial — is written. -/
theorem c2_tamper_detection (key nonce pt : List Nat) (fs : FS) (encPath : String)
    (out : Option String) (i b : Nat)
    (hkey : key.length = 32) (hkv : validBytes key) (hn : nonce.length = 12)
    (hi : 16 ≤ i) (hi2 : i < (encryptEnvelope key nonce pt).length) (hb : b < 8)
    (hfs : lookupFS fs encPath = some (flipBit (encryptEnvelope key nonce pt) i b)) :
    decryptEnvelope (flipBit (encryptEnvelope key nonce pt) i b) (encode_key_base64 key)
      = .error .invalidTag ∧
    decrypt_file fs encPath (encode_key_base64 key) out = .error .invalidTag := by
  have hdec := decryptEnvelope_flip key nonce pt i b hkey hkv hn hi hi2
  exact ⟨hdec, by simp only [decrypt_file, hfs, hdec]⟩

/-- C2 witness: flipping the lowest bit of the first ciphertext byte of a
concrete envelope is rejected with `InvalidTag`. -/
theorem c2_tamper_detection_witness :
    decryptEnvelope (flipBit (encryptEnvelope testKey testNonce [7]) 16 0)
        (encode_key_base64 testKey) = .error .invalidTag ∧
    decrypt_file [("f.enc", flipBit (encryptEnvelope testKey testNonce [7]) 16 0)]
        "f.enc" (encode_key_base64 testKey) none = .error .invalidTag :=
  c2_tamper_detection testKey testNonce [7] _ "f.enc" none 16 0
    (by decide) (by decide) (by decide) (by decide) (by decide) (by decide) rfl

/-- C3 counterexample: decoding a valid base64 text that represents only
16 bytes is NOT rejected — `decode_key_base64` returns the 16 bytes, so the
claimed length check does not exist in the code. -/
theorem c3_counterexample :
    decode_key_base64 (encode_key_base64 (List.replicate 16 0))
      = .ok (List.replicate 16 0) ∧
    (List.replicate 16 0).length ≠ 32 := by
  exact ⟨rfl, by decide⟩

/-- C3 (amended): key decoding fails (with a `binascii.Error`) on text that
is not valid base64, but performs no length check at all: the valid
encoding of any byte string of any length decodes back to exactly those
bytes and is returned as a key rather than rejected. -/
theorem c3_decode_no_length_check (k : List Nat) (hk : validBytes k) :
    decode_key_base64 (encode_key_base64 k) = .ok k ∧
    decode_key_base64 "AAA" = .error PyError.binasciiError :=
  ⟨decode_encode_key k hk, rfl⟩

/-- C3 witness: the 16-byte all-zero key decodes back unchanged, while the
malformed text `"AAA"` is rejected. -/
theorem c3_decode_no_length_check_witness :
    decode_key_base64 (encode_key_base64 (List.replicate 16 0))
      = .ok (List.replicate 16 0) ∧
    decode_key_base64 "AAA" = .error PyError.binasciiError :=
  c3_decode_no_length_check (List.replicate 16 0) (by decide)

/-- C4 counterexample: on a concrete run, `encrypt_stream_to_file` writes
exactly 12 + 0 + 16 = 28 bytes but returns the output path `"out.enc"` as
its first component, not the number 28 of bytes written. -/
theorem c4_counterexample :
    (encrypt_stream_to_file testKey testNonce [] [] "out.enc").2.1 = "out.enc" ∧
    lookupFS (encrypt_stream_to_file testKey testNonce [] [] "out.enc").1 "out.enc"
      = some (testNonce ++ gtag testKey testNonce []) ∧
    (testNonce ++ gtag testKey testNonce []).length = 12 + 0 + 16 ∧
    ("out.enc" : String) ≠ "28" := by
  have hnil : encryptChunks testKey testNonce 0 [] = [] := by
    rw [encryptChunks]; simp
  refine ⟨?_, ?_, ?_, ?_⟩
  · rfl
  · simp only [encrypt_stream_to_file, hnil]
    exact lookupFS_writeFS_self _ _ _
  · decide
  · decide

/-- C4 (amended): for a source of `n` bytes, `encrypt_stream_to_file`
writes to the sink exactly the 12-byte nonce first, then the ciphertext
body, then the 16-byte tag as the final 16 bytes, with no format marker,
for a total of 12 + n + 16 bytes — but it returns the output path (not the
byte count) as its first component, together with the key text. -/
theorem c4_stream_envelope_layout (key nonce src : List Nat) (fs : FS)
    (outputPath : String) (hn : nonce.length = 12) :
    encrypt_stream_to_file key nonce src fs outputPath =
      (writeFS fs outputPath
         (nonce ++ (xorKs key nonce 0 src ++ gtag key nonce (xorKs key nonce 0 src))),
       outputPath, encode_key_base64 key) ∧
    (nonce ++ (xorKs key nonce 0 src ++ gtag key nonce (xorKs key nonce 0 src))).length
      = 12 + src.length + 16 ∧
    (nonce ++ (xorKs key nonce 0 src ++ gtag key nonce (xorKs key nonce 0 src))).take 12
      = nonce ∧
    (nonce ++ (xorKs key nonce 0 src ++ gtag key nonce (xorKs key nonce 0 src))).drop
        (12 + src.length) = gtag key nonce (xorKs key nonce 0 src) := by
  have hct : (xorKs key nonce 0 src).length = src.length := xorKs_length key nonce 0 src
  refine ⟨?_, ?_, ?_, ?_⟩
  · unfold encrypt_stream_to_file
    rw [encryptChunks_eq]
  · rw [List.length_append, List.length_append, hn, hct, gtag_length]; omega
  · rw [← hn, List.take_left]
  · rw [show 12 + src.length = (nonce ++ xorKs key nonce 0 src).length by
      rw [List.length_append, hn, hct]]
    rw [← List.append_assoc, List.drop_left]

/-- C4 witness: a concrete streaming run over a 3-byte source. -/
theorem c4_stream_envelope_layout_witness :
    encrypt_stream_to_file testKey testNonce [1, 2, 3] [] "out.enc" =
      (writeFS [] "out.enc"
         (testNonce ++ (xorKs testKey testNonce 0 [1, 2, 3]
            ++ gtag testKey testNonce (xorKs testKey testNonce 0 [1, 2, 3]))),
       "out.enc", encode_key_base64 testKey) ∧
    (testNonce ++ (xorKs testKey testNonce 0 [1, 2, 3]
       ++ gtag testKey testNonce (xorKs testKey testNonce 0 [1, 2, 3]))).length
      = 12 + 3 + 16 ∧
    (testNonce ++ (xorKs testKey testNonce 0 [1, 2, 3]
       ++ gtag testKey testNonce (xorKs testKey testNonce 0 [1, 2, 3]))).take 12
      = testNonce ∧
    (testNonce ++ (xorKs testKey testNonce 0 [1, 2, 3]
       ++ gtag testKey testNonce (xorKs testKey testNonce 0 [1, 2, 3]))).drop (12 + 3)
      = gtag testKey testNonce (xorKs testKey testNonce 0 [1, 2, 3]) := by
  have h := c4_stream_envelope_layout testKey testNonce [1, 2, 3] [] "out.enc" (by decide)
  exact ⟨h.1, h.2.1, h.2.2.1, h.2.2.2⟩

/-- C5 counterexample: `encrypt_file` does persist — on a concrete run it
creates the temporary `.enc` file (absent beforehand) containing the
envelope, and returns that path instead of the envelope bytes. -/
theorem c5_counterexample :
    lookupFS [("in.txt", [1, 2, 3])] "t.enc" = none ∧
    encrypt_file testKey testNonce "t.enc" [("in.txt", [1, 2, 3])] "in.txt" =
      .ok (writeFS [("in.txt", [1, 2, 3])] "t.enc"
             (encryptEnvelope testKey testNonce [1, 2, 3]),
           "t.enc", encode_key_base64 testKey) ∧
    lookupFS (writeFS [("in.txt", [1, 2, 3])] "t.enc"
        (encryptEnvelope testKey testNonce [1, 2, 3])) "t.enc"
      = some (encryptEnvelope testKey testNonce [1, 2, 3]) :=
  ⟨rfl, rfl, rfl⟩

/-- C5 (amended): single-shot encryption persists its result itself: it
writes exactly one file — the envelope, at the fresh temporary path — and
returns that path with the key text, leaving every other path of the file
system untouched; handing the envelope bytes back to the caller is not
what the code does. -/
theorem c5_encrypt_file_writes_one_file (key nonce pt : List Nat) (fs : FS)
    (filePath tempPath : String)
    (hfile : lookupFS fs filePath = some pt) :
    encrypt_file key nonce tempPath fs filePath =
      .ok (writeFS fs tempPath (encryptEnvelope key nonce pt), tempPath,
           encode_key_base64 key) ∧
    lookupFS (writeFS fs tempPath (encryptEnvelope key nonce pt)) tempPath
      = some (encryptEnvelope key nonce pt) ∧
    ∀ q, q ≠ tempPath →
      lookupFS (writeFS fs tempPath (encryptEnvelope key nonce pt)) q = lookupFS fs q := by
  refine ⟨?_, lookupFS_writeFS_self _ _ _, ?_⟩
  · simp only [encrypt_file, hfile]
  · intro q hq
    exact lookupFS_writeFS_ne _ _ _ _ hq

/-- C5 witness: the concrete run of the counterexample, plus the frame
condition on the input file. -/
theorem c5_encrypt_file_writes_one_file_witness :
    encrypt_file testKey testNonce "t.enc" [("in.txt", [1, 2, 3])] "in.txt" =
      .ok (writeFS [("in.txt", [1, 2, 3])] "t.enc"
             (encryptEnvelope testKey testNonce [1, 2, 3]),
           "t.enc", encode_key_base64 testKey) ∧
    lookupFS (writeFS [("in.txt", [1, 2, 3])] "t.enc"
        (encryptEnvelope testKey testNonce [1, 2, 3])) "t.enc"
      = some (encryptEnvelope testKey testNonce [1, 2, 3]) ∧
    lookupFS (writeFS [("in.txt", [1, 2, 3])] "t.enc"
        (encryptEnvelope testKey testNonce [1, 2, 3])) "in.txt" = some [1, 2, 3] := by
  have h := c5_encrypt_file_writes_one_file testKey testNonce [1, 2, 3]
    [("in.txt", [1, 2, 3])] "in.txt" "t.enc" rfl
  exact ⟨h.1, h.2.1, by rw [h.2.2 "in.txt" (by decide)]; rfl⟩

/-- Parsing plus decryption under a well-formed key text, for any envelope
whose leading four bytes equal the marker. -/
theorem decryptEnvelope_ok_key (env key : List Nat)
    (hm : env.take 4 = MAGIC) (hkey : key.length = 32) (hkv : validBytes key) :
    decryptEnvelope env (encode_key_base64 key)
      = aesgcmDecrypt key ((env.drop 4).take NONCE_SIZE) (env.drop 16) := by
  unfold decryptEnvelope
  rw [hm, if_neg (by simp), decode_encode_key key hkv]
  have hnew : aesgcmNew key = .ok key := by
    unfold aesgcmNew
    rw [if_pos (Or.inr (Or.inr hkey))]
  simp only [hnew]

/-- C6: whenever the first 4 bytes of an envelope differ from the marker
`SFT1`, `decrypt_file` fails with the `FormatMismatch` ValueError before
any key decoding or cryptographic operation: the result is the same for
every key text, malformed ones included. -/
theorem c6_magic_checked_first (env : List Nat) (keyB64 : String) (fs : FS)
    (encPath : String) (out : Option String)
    (hm : env.take 4 ≠ MAGIC) (hfs : lookupFS fs encPath = some env) :
    decryptEnvelope env keyB64 =
      .error (.valueError "Invalid encrypted file format: MAGIC mismatch") ∧
    decrypt_file fs encPath keyB64 out =
      .error (.valueError "Invalid encrypted file format: MAGIC mismatch") := by
  have hdec : decryptEnvelope env keyB64 =
      .error (.valueError "Invalid encrypted file format: MAGIC mismatch") := by
    unfold decryptEnvelope
    rw [if_pos hm]
  exact ⟨hdec, by simp only [decrypt_file, hfs, hdec]⟩

/-- C6 witness: a wrong marker together with the malformed key text
`"AAA"` still reports the marker mismatch. -/
theorem c6_magic_checked_first_witness :
    decryptEnvelope [0, 0, 0, 0, 1] "AAA" =
      .error (.valueError "Invalid encrypted file format: MAGIC mismatch") ∧
    decrypt_file [("x.enc", [0, 0, 0, 0, 1])] "x.enc" "AAA" none =
      .error (.valueError "Invalid encrypted file format: MAGIC mismatch") :=
  c6_magic_checked_first [0, 0, 0, 0, 1] "AAA" [("x.enc", [0, 0, 0, 0, 1])] "x.enc" none
    (by decide) rfl

/-- C7 counterexample: the empty envelope is shorter than 16 bytes, yet
single-shot decryption fails with the `FormatMismatch` ValueError — not
with a distinct `TruncatedContainer` error, which the code never raises. -/
theorem c7_counterexample :
    decryptEnvelope [] (encode_key_base64 testKey)
      = .error (.valueError "Invalid encrypted file format: MAGIC mismatch") ∧
    ([] : List Nat).length < 16 :=
  ⟨rfl, by decide⟩

/-- C7 (amended): an envelope shorter than 16 bytes always fails to
decrypt, but never with a dedicated truncation error: the failure is the
`FormatMismatch` ValueError when the leading bytes differ from the marker,
and otherwise comes from the AEAD layer as an invalid-nonce ValueError or
an `InvalidTag` (`AuthenticationFailed`). -/
theorem c7_short_envelope_fails (env key : List Nat)
    (hkey : key.length = 32) (hkv : validBytes key) (hshort : env.length < 16) :
    decryptEnvelope env (encode_key_base64 key)
        = .error (.valueError "Invalid encrypted file format: MAGIC mismatch") ∨
    decryptEnvelope env (encode_key_base64 key)
        = .error (.valueError "Nonce must be between 8 and 128 bytes") ∨
    decryptEnvelope env (encode_key_base64 key) = .error PyError.invalidTag := by
  by_cases hm : env.take 4 = MAGIC
  · have hr : (env.drop 4).length ≤ 12 := by
      rw [List.length_drop]; omega
    rw [decryptEnvelope_ok_key env key hm hkey hkv]
    simp only [NONCE_SIZE]
    rw [show env.drop 16 = [] from List.drop_of_length_le (by omega)]
    rw [show (env.drop 4).take 12 = env.drop 4 from List.take_of_length_le hr]
    unfold aesgcmDecrypt
    by_cases h8 : (env.drop 4).length < 8
    · right; left
      rw [if_pos (Or.inl h8)]
    · right; right
      rw [if_neg (by omega), if_pos (by decide)]
  · left
    unfold decryptEnvelope
    rw [if_pos hm]

/-- C7 witness: a 9-byte envelope starting with the marker fails with the
invalid-nonce ValueError, satisfying the disjunction. -/
theorem c7_short_envelope_fails_witness :
    decryptEnvelope [83, 70, 84, 49, 1, 2, 3, 4, 5] (encode_key_base64 testKey)
        = .error (.valueError "Invalid encrypted file format: MAGIC mismatch") ∨
    decryptEnvelope [83, 70, 84, 49, 1, 2, 3, 4, 5] (encode_key_base64 testKey)
        = .error (.valueError "Nonce must be between 8 and 128 bytes") ∨
    decryptEnvelope [83, 70, 84, 49, 1, 2, 3, 4, 5] (encode_key_base64 testKey)
        = .error PyError.invalidTag :=
  c7_short_envelope_fails [83, 70, 84, 49, 1, 2, 3, 4, 5] testKey
    (by decide) (by decide) (by decide)

/-- C8 counterexample: the quoted test sequence has 55 bytes, not 57, and
its single-shot envelope has 4 + 12 + 55 + 16 = 87 bytes, not 89. -/
theorem c8_counterexample :
    testFileBytes.length = 55 ∧ testFileBytes.length ≠ 57 ∧
    (encryptEnvelope testKey testNonce testFileBytes).length = 87 ∧
    (encryptEnvelope testKey testNonce testFileBytes).length ≠ 89 :=
  ⟨rfl, by decide, rfl, by decide⟩

/-- C8 (amended): the single-shot envelope is exactly the concatenation
`marker ‖ nonce ‖ ciphertext_with_tag` and has length 4 + 12 + n + 16; in
particular, encrypting the 55-byte sequence `"This is a test file for the
secure file transfer system"` yields an envelope of exactly 87 bytes, and
a full encrypt–decrypt cycle reproduces the exact 55 bytes. -/
theorem c8_envelope_layout (key nonce pt : List Nat)
    (hkey : key.length = 32) (hkv : validBytes key) (hn : nonce.length = 12) :
    (encryptEnvelope key nonce pt).take 4 = MAGIC ∧
    ((encryptEnvelope key nonce pt).drop 4).take 12 = nonce ∧
    (encryptEnvelope key nonce pt).drop 16 = aesgcmEncrypt key nonce pt ∧
    (encryptEnvelope key nonce pt).length = 4 + 12 + pt.length + 16 ∧
    (pt = testFileBytes →
      (encryptEnvelope key nonce pt).length = 87 ∧
      decryptEnvelope (encryptEnvelope key nonce pt) (encode_key_base64 key) = .ok pt) := by
  refine ⟨?_, ?_, ?_, ?_, ?_⟩
  · show (MAGIC ++ (nonce ++ aesgcmEncrypt key nonce pt)).take 4 = MAGIC
    exact @List.take_left' _ MAGIC _ 4 rfl
  · show ((MAGIC ++ (nonce ++ aesgcmEncrypt key nonce pt)).drop 4).take 12 = nonce
    rw [@List.drop_left' _ MAGIC _ 4 rfl, ← hn, List.take_left]
  · show (MAGIC ++ (nonce ++ aesgcmEncrypt key nonce pt)).drop 16 = aesgcmEncrypt key nonce pt
    rw [show (16 : Nat) = (MAGIC ++ nonce).length by simp [MAGIC, hn],
      ← List.append_assoc, List.drop_left]
  · show (MAGIC ++ (nonce ++ aesgcmEncrypt key nonce pt)).length = 4 + 12 + pt.length + 16
    simp only [List.length_append, aesgcmEncrypt_length, hn, MAGIC,
      List.length_cons, List.length_nil]
    omega
  · intro hpt
    refine ⟨?_, ?_⟩
    · rw [hpt]
      show (MAGIC ++ (nonce ++ aesgcmEncrypt key nonce testFileBytes)).length = 87
      rw [List.length_append, List.length_append, aesgcmEncrypt_length, hn]
      decide
    · rw [hpt]
      exact decryptEnvelope_encryptEnvelope key nonce testFileBytes hkey hkv hn

/-- C8 witness: the layout, the 87-byte length and the round trip at the
concrete test key, nonce and file content. -/
theorem c8_envelope_layout_witness :
    (encryptEnvelope testKey testNonce testFileBytes).take 4 = MAGIC ∧
    ((encryptEnvelope testKey testNonce testFileBytes).drop 4).take 12 = testNonce ∧
    (encryptEnvelope testKey testNonce testFileBytes).drop 16
      = aesgcmEncrypt testKey testNonce testFileBytes ∧
    (encryptEnvelope testKey testNonce testFileBytes).length
      = 4 + 12 + testFileBytes.length + 16 ∧
    (testFileBytes = testFileBytes →
      (encryptEnvelope testKey testNonce testFileBytes).length = 87 ∧
      decryptEnvelope (encryptEnvelope testKey testNonce testFileBytes)
        (encode_key_base64 testKey) = .ok testFileBytes) :=
  c8_envelope_layout testKey testNonce testFileBytes (by decide) (by decide) (by decide)

/-- C9: for every 32-byte key, decoding the encoding returns the key
exactly, and every character of the encoded text is URL-safe (alphanumeric,
`-`, `_` or the `=` pad) and in particular neither whitespace nor a
newline. -/
theorem c9_key_encode_roundtrip (key : List Nat)
    (hkey : key.length = 32) (hkv : validBytes key) :
    decode_key_base64 (encode_key_base64 key) = .ok key ∧
    ∀ c ∈ (encode_key_base64 key).data,
      (c.isAlphanum = true ∨ c = '-' ∨ c = '_' ∨ c = '=') ∧ c.isWhitespace = false := by
  refine ⟨decode_encode_key key hkv, ?_⟩
  intro c hc
  have hmem := mem_b64EncodeCore key hkv
  rcases List.mem_map.mp (by simpa [encode_key_base64] using hc) with ⟨c0, hc0, rfl⟩
  rcases hmem c0 hc0 with rfl | ⟨s, hs, rfl⟩
  · exact ⟨Or.inr (Or.inr (Or.inr (by decide))), by decide⟩
  · rcases urlsafe_sextetChar_ok s hs with ⟨halpha, _, hws⟩
    rcases halpha with h2 | h2 | h2
    · exact ⟨Or.inl h2, hws⟩
    · exact ⟨Or.inr (Or.inl h2), hws⟩
    · exact ⟨Or.inr (Or.inr (Or.inl h2)), hws⟩

/-- C9 witness: the round trip and character shape at the concrete
32-byte test key. -/
theorem c9_key_encode_roundtrip_witness :
    decode_key_base64 (encode_key_base64 testKey) = .ok testKey ∧
    ∀ c ∈ (encode_key_base64 testKey).data,
      (c.isAlphanum = true ∨ c = '-' ∨ c = '_' ∨ c = '=') ∧ c.isWhitespace = false :=
  c9_key_encode_roundtrip testKey (by decide) (by decide)

/-- C10: when `decrypt_file` is called without an explicit output path and
succeeds, the returned plaintext path is derived deterministically from
the input path: strip a trailing `".enc"` (4 characters) if present,
otherwise append `".decrypted"`. -/
theorem c10_default_output_path (fs : FS) (encPath keyB64 : String) (fs2 : FS)
    (p : String)
    (h : decrypt_file fs encPath keyB64 none = .ok (fs2, p)) :
    p = (if (".enc".data).isSuffixOf encPath.data
         then String.mk (encPath.data.take (encPath.data.length - 4))
         else encPath ++ ".decrypted") := by
  unfold decrypt_file at h
  cases hl : lookupFS fs encPath with
  | none => rw [hl] at h; exact absurd h (by simp)
  | some env =>
    rw [hl] at h
    cases hd : decryptEnvelope env keyB64 with
    | error e => simp only [hd] at h; exact absurd h (by simp)
    | ok pt =>
      simp only [hd, Except.ok.injEq, Prod.mk.injEq] at h
      rw [← h.2]
      rfl

/-- C10 witness: a successful concrete decryption of `"a.enc"` without an
explicit output path returns the stripped path `"a"`. -/
theorem c10_default_output_path_witness :
    ("a" : String) = (if (".enc".data).isSuffixOf ("a.enc" : String).data
        then String.mk (("a.enc" : String).data.take (("a.enc" : String).data.length - 4))
        else "a.enc" ++ ".decrypted") :=
  c10_default_output_path [("a.enc", encryptEnvelope testKey testNonce [1])] "a.enc"
    (encode_key_base64 testKey)
    [("a", [1]), ("a.enc", encryptEnvelope testKey testNonce [1])] "a" rfl

end SFT
